import Mathlib

/-!
Verification of the synchronization core of simple-rust-backup
(src/main.rs).  The program has a copy/update phase (function main,
lines 84 to 150): walk the source tree, collect regular files, and for
each one decide from the modification times whether to copy it to the
corresponding relative path under the target root; and an optional purge
phase (function purge_orphans, lines 212 to 267): walk the target tree,
drop the root, sort the entries deepest first, and delete every entry
whose relative path has no counterpart under the source root.

The embedding models paths as lists of components relative to the tree
roots, modification times as natural numbers wrapped in Option (none is
a failing metadata read), the walks as input lists of Except values
(errors are per-entry traversal failures), and the removal calls of the
purge phase through a success oracle, since whether remove_dir succeeds
depends on the surrounding filesystem.  Byte contents are lists of
naturals.  The copy itself (copy_with_progress) is modelled as writing
the source bytes at the target path with the copy-time clock value as
the new modification time.
-/

namespace Backup

/-- A path relative to a tree root, as its list of components.  The
walkdir depth of an entry equals the component count of its relative
path. -/
abbrev Path := List String

/-- A regular file found by the source walk: relative path, byte
content, and modification time; none models a failing metadata read
(main.rs line 100). -/
structure SrcFile where
  path : Path
  content : List Nat
  mtime : Option Nat
deriving Repr, DecidableEq

/-- A file stored in the target tree: byte content and modification
time; none models a failing metadata read (main.rs line 108). -/
structure TFile where
  content : List Nat
  mtime : Option Nat
deriving Repr, DecidableEq

/-- The target tree as a finite association of relative paths to
files. -/
abbrev Tgt := List (Path × TFile)

/-- Look a relative path up in the target tree. -/
def lookupT : Tgt → Path → Option TFile
  | [], _ => none
  | (q, f) :: rest, p => if q = p then some f else lookupT rest p

/-- Remove every binding of a relative path from the target tree. -/
def eraseT : Tgt → Path → Tgt
  | [], _ => []
  | (q, f) :: rest, p => if q = p then eraseT rest p else (q, f) :: eraseT rest p

/-- Write a file at a relative path, overwriting any previous binding
(create/truncate semantics of File::create, main.rs line 183). -/
def insertT (t : Tgt) (p : Path) (f : TFile) : Tgt :=
  (p, f) :: eraseT t p

/-- Outcome of the per-file staleness decision of the copy phase
(main.rs lines 99 to 119).  copy and skip are the two regular outcomes;
errSrc and errTgt are the two log-and-skip exits taken when reading the
source or target modification time fails. -/
inductive Decision
  | copy
  | skip
  | errSrc
  | errTgt
deriving Repr, DecidableEq

/-- The staleness decision (main.rs lines 99 to 119): when the target
path does not exist, copy without reading any metadata; when it exists,
read the source modification time, then the target one (each read
fallible, a failure skips the file), and copy exactly when the source
time is strictly greater. -/
def shouldCopy (targetExists : Bool) (sourceMod targetMod : Option Nat) : Decision :=
  if targetExists then
    match sourceMod with
    | none => Decision.errSrc
    | some s =>
      match targetMod with
      | none => Decision.errTgt
      | some t => if s > t then Decision.copy else Decision.skip
  else Decision.copy

/-- The staleness decision a source file receives against a target tree:
existence and modification time of the counterpart are read from the
binding at the relative path of the file. -/
def decideFile (tgt : Tgt) (f : SrcFile) : Decision :=
  shouldCopy (lookupT tgt f.path).isSome f.mtime ((lookupT tgt f.path).bind TFile.mtime)

/-- The relative paths of the directories ensured by create_dir_all on
the parent of a copied file (main.rs lines 123 to 128): every nonempty
proper ancestor of the file path. -/
def ancestors (p : Path) : List Path :=
  (List.range (p.length - 1)).map (fun k => p.take (k + 1))

/-- An entry returned by the source walk: relative path and whether it
is a regular file. -/
structure WEntry where
  path : Path
  is_file : Bool
deriving Repr, DecidableEq

/-- Collection of the source walk results (main.rs lines 56 to 68):
each traversal error is logged and skipped; of the readable entries only
regular files are kept.  Returns the file list and the log lines. -/
def collectFiles : List (Except String WEntry) → List WEntry × List String
  | [] => ([], [])
  | Except.error e :: rest =>
    let r := collectFiles rest
    (r.1, ("Error reading entry: " ++ e) :: r.2)
  | Except.ok w :: rest =>
    let r := collectFiles rest
    (if w.is_file then w :: r.1 else r.1, r.2)

/-- The log line the staleness decision emits, if any (main.rs lines
103 and 111). -/
def decLog : Decision → Option String
  | Decision.errSrc => some "Error reading source mtime"
  | Decision.errTgt => some "Error reading target mtime"
  | _ => none

/-- Effect of one copy-phase step on the target tree: a copy decision
writes the source bytes at the relative path of the file, stamped with
the copy-time clock value now; every other decision leaves the tree
unchanged. -/
def syncTgt (now : Nat) (tgt : Tgt) (f : SrcFile) : Tgt :=
  match decideFile tgt f with
  | Decision.copy => insertT tgt f.path { content := f.content, mtime := some now }
  | _ => tgt

/-- Directories created by one copy-phase step: create_dir_all on the
parent runs only inside the copy branch (main.rs lines 121 to 129). -/
def syncDirs (tgt : Tgt) (f : SrcFile) : List Path :=
  match decideFile tgt f with
  | Decision.copy => ancestors f.path
  | _ => []

/-- Output of the copy phase: final target tree, directories created,
per-file decisions in input order, and error log lines. -/
structure RunOut where
  tgt : Tgt
  dirs : List Path
  decs : List Decision
  logs : List String
deriving Repr, DecidableEq

/-- The copy/update loop of main (lines 84 to 150): files are processed
in walk order; each one is decided against the current target tree, and
a metadata failure logs and skips that file while the loop continues
with the next one. -/
def runSync (now : Nat) : List SrcFile → Tgt → RunOut
  | [], tgt => { tgt := tgt, dirs := [], decs := [], logs := [] }
  | f :: rest, tgt =>
    let r := runSync now rest (syncTgt now tgt f)
    { tgt := r.tgt
      dirs := syncDirs tgt f ++ r.dirs
      decs := decideFile tgt f :: r.decs
      logs := (decLog (decideFile tgt f)).toList ++ r.logs }

/-- An entry of the target walk during the purge phase: relative path
and whether it is a regular file.  Its walkdir depth is the component
count of its relative path. -/
structure PEntry where
  path : Path
  is_file : Bool
deriving Repr, DecidableEq

/-- Deepest-first order on purge entries: an entry sorts before another
when its depth is at least as large. -/
def deeperEq (a b : PEntry) : Prop :=
  b.path.length ≤ a.path.length

instance : DecidableRel deeperEq :=
  fun a b => Nat.decLe b.path.length a.path.length

instance : IsTotal PEntry deeperEq :=
  ⟨fun a b => Nat.le_total b.path.length a.path.length⟩

instance : IsTrans PEntry deeperEq :=
  ⟨fun _ _ _ hab hbc => Nat.le_trans hbc hab⟩

/-- Candidate list of purge_orphans (main.rs lines 214 to 222): drop
erroneous walk entries, drop the target root itself (depth 0), and sort
the rest by descending depth with a stable sort. -/
def purgeCandidates (walk : List (Except String PEntry)) : List PEntry :=
  List.insertionSort deeperEq
    ((walk.filterMap Except.toOption).filter (fun e => 0 < e.path.length))

/-- Result of purge_orphans: relative paths on which deletion was
attempted, in processing order; those successfully deleted; the warning
log lines of failed deletions; and the io result value returned. -/
structure PurgeResult where
  attempted : List Path
  deleted : List Path
  logs : List String
  result : Except String Unit
deriving Repr

/-- The deletion loop of purge_orphans (main.rs lines 227 to 254): an
entry whose relative path still exists under source is kept and skipped
entirely; otherwise deletion is attempted, recorded when it succeeds and
logged as a warning when it fails.  src lists every relative path that
exists under the source root; delOk tells whether the filesystem remove
call on a relative path succeeds. -/
def purgeLoop (src : List Path) (delOk : Path → Bool) :
    List PEntry → List Path × List Path × List String
  | [] => ([], [], [])
  | e :: rest =>
    if e.path ∈ src then purgeLoop src delOk rest
    else
      let r := purgeLoop src delOk rest
      if delOk e.path then (e.path :: r.1, e.path :: r.2.1, r.2.2)
      else (e.path :: r.1, r.2.1,
        ("Failed to delete " ++ String.intercalate "/" e.path) :: r.2.2)

/-- purge_orphans (main.rs lines 212 to 267): build the candidate list,
run the deletion loop, and return Ok: every removal failure is handled
inside the loop by logging, and none is propagated as an Err. -/
def purgeOrphans (src : List Path) (delOk : Path → Bool)
    (walk : List (Except String PEntry)) : PurgeResult :=
  { attempted := (purgeLoop src delOk (purgeCandidates walk)).1
    deleted := (purgeLoop src delOk (purgeCandidates walk)).2.1
    logs := (purgeLoop src delOk (purgeCandidates walk)).2.2
    result := Except.ok () }

/-- The error report main prints when purge_orphans returns an Err
(main.rs lines 155 to 157). -/
def mainPurgeLog (r : PurgeResult) : List String :=
  match r.result with
  | Except.ok _ => []
  | Except.error e => ["Deletion phase finished with errors: " ++ e]

/-! Helper lemmas about the target tree operations. -/

theorem lookupT_eraseT_ne {p q : Path} (h : p ≠ q) :
    ∀ t : Tgt, lookupT (eraseT t p) q = lookupT t q := by
  intro t
  induction t with
  | nil => rfl
  | cons hd tl ih =>
    obtain ⟨a, f⟩ := hd
    by_cases hap : a = p
    · subst hap
      simp [eraseT, lookupT, ih, h]
    · by_cases haq : a = q
      · subst haq
        simp [eraseT, lookupT, hap]
      · simp [eraseT, lookupT, hap, haq, ih]

theorem lookupT_insertT_self (t : Tgt) (p : Path) (f : TFile) :
    lookupT (insertT t p f) p = some f := by
  simp [insertT, lookupT]

theorem lookupT_insertT_ne {p q : Path} (h : p ≠ q) (t : Tgt) (f : TFile) :
    lookupT (insertT t p f) q = lookupT t q := by
  simp only [insertT, lookupT, if_neg h]
  exact lookupT_eraseT_ne h t

theorem lookupT_syncTgt_ne (now : Nat) (tgt : Tgt) (f : SrcFile) {p : Path}
    (h : f.path ≠ p) : lookupT (syncTgt now tgt f) p = lookupT tgt p := by
  unfold syncTgt
  cases decideFile tgt f <;> simp [lookupT_insertT_ne h]

theorem decideFile_congr {t1 t2 : Tgt} (f : SrcFile)
    (h : lookupT t1 f.path = lookupT t2 f.path) :
    decideFile t1 f = decideFile t2 f := by
  unfold decideFile
  rw [h]

/-! Helper lemmas about the copy-phase run. -/

theorem runSync_lookup_untouched (now : Nat) (p : Path) :
    ∀ files : List SrcFile, (∀ f ∈ files, f.path ≠ p) →
      ∀ tgt : Tgt, lookupT (runSync now files tgt).tgt p = lookupT tgt p := by
  intro files
  induction files with
  | nil => intro _ tgt; rfl
  | cons f rest ih =>
    intro hp tgt
    have hf : f.path ≠ p := hp f (List.mem_cons_self f rest)
    have hrest : ∀ g ∈ rest, g.path ≠ p :=
      fun g hg => hp g (List.mem_cons_of_mem f hg)
    show lookupT (runSync now rest (syncTgt now tgt f)).tgt p = lookupT tgt p
    rw [ih hrest (syncTgt now tgt f), lookupT_syncTgt_ne now tgt f hf]

theorem shouldCopy_le {s t : Nat} (h : s ≤ t) :
    shouldCopy true (some s) (some t) = Decision.skip := by
  have h2 : ¬ s > t := by omega
  simp [shouldCopy, h2]

theorem decideFile_syncTgt (now : Nat) (tgt : Tgt) (f : SrcFile)
    (hs : ∀ s, f.mtime = some s → s ≤ now) :
    decideFile (syncTgt now tgt f) f ≠ Decision.copy := by
  cases hd : decideFile tgt f with
  | copy =>
    have hstep : syncTgt now tgt f
        = insertT tgt f.path { content := f.content, mtime := some now } := by
      unfold syncTgt
      rw [hd]
    rw [hstep]
    unfold decideFile
    rw [lookupT_insertT_self]
    cases hm : f.mtime with
    | none =>
      show shouldCopy true none (some now) ≠ Decision.copy
      simp [shouldCopy]
    | some s =>
      show shouldCopy true (some s) (some now) ≠ Decision.copy
      rw [shouldCopy_le (hs s hm)]
      simp
  | skip =>
    have hstep : syncTgt now tgt f = tgt := by
      unfold syncTgt
      rw [hd]
    rw [hstep, hd]
    simp
  | errSrc =>
    have hstep : syncTgt now tgt f = tgt := by
      unfold syncTgt
      rw [hd]
    rw [hstep, hd]
    simp
  | errTgt =>
    have hstep : syncTgt now tgt f = tgt := by
      unfold syncTgt
      rw [hd]
    rw [hstep, hd]
    simp

theorem runSync_decide_final (now : Nat) :
    ∀ files : List SrcFile, (files.map SrcFile.path).Nodup →
      (∀ f ∈ files, ∀ s, f.mtime = some s → s ≤ now) →
      ∀ tgt : Tgt, ∀ f ∈ files,
        decideFile (runSync now files tgt).tgt f ≠ Decision.copy := by
  intro files
  induction files with
  | nil => intro _ _ tgt f hf; cases hf
  | cons g rest ih =>
    intro hnd hmt tgt f hf
    have hcons : g.path ∉ rest.map SrcFile.path ∧ (rest.map SrcFile.path).Nodup := by
      rw [List.map_cons, List.nodup_cons] at hnd
      exact hnd
    rcases List.mem_cons.mp hf with hfg | hfr
    · subst hfg
      have huntouched : ∀ h ∈ rest, h.path ≠ f.path := by
        intro h hh heq
        exact hcons.1 (heq ▸ List.mem_map_of_mem SrcFile.path hh)
      have hlook : lookupT (runSync now rest (syncTgt now tgt f)).tgt f.path
          = lookupT (syncTgt now tgt f) f.path :=
        runSync_lookup_untouched now f.path rest huntouched _
      show decideFile (runSync now rest (syncTgt now tgt f)).tgt f ≠ Decision.copy
      rw [decideFile_congr f hlook]
      exact decideFile_syncTgt now tgt f (hmt f (List.mem_cons_self f rest))
    · exact ih hcons.2 (fun h hh s hs => hmt h (List.mem_cons_of_mem g hh) s hs)
        (syncTgt now tgt g) f hfr

theorem runSync_no_copy_of_decide (now2 : Nat) :
    ∀ files : List SrcFile, ∀ tgt : Tgt,
      (∀ f ∈ files, decideFile tgt f ≠ Decision.copy) →
      ∀ d ∈ (runSync now2 files tgt).decs, d ≠ Decision.copy := by
  intro files
  induction files with
  | nil => intro tgt _ d hd; simp [runSync] at hd
  | cons g rest ih =>
    intro tgt h d hd
    have hg : decideFile tgt g ≠ Decision.copy := h g (List.mem_cons_self g rest)
    have hstep : syncTgt now2 tgt g = tgt := by
      unfold syncTgt
      cases hgd : decideFile tgt g with
      | copy => exact absurd hgd hg
      | skip => rfl
      | errSrc => rfl
      | errTgt => rfl
    have hd2 : d = decideFile tgt g ∨ d ∈ (runSync now2 rest (syncTgt now2 tgt g)).decs := by
      simpa [runSync] using hd
    rcases hd2 with h1 | h2
    · rw [h1]; exact hg
    · rw [hstep] at h2
      exact ih tgt (fun f hf => h f (List.mem_cons_of_mem g hf)) d h2

theorem runSync_decs_length (now : Nat) :
    ∀ files : List SrcFile, ∀ tgt : Tgt,
      (runSync now files tgt).decs.length = files.length := by
  intro files
  induction files with
  | nil => intro tgt; rfl
  | cons f rest ih =>
    intro tgt
    simp [runSync, ih]

theorem runSync_logs_decs (now : Nat) :
    ∀ files : List SrcFile, ∀ tgt : Tgt,
      (runSync now files tgt).logs = (runSync now files tgt).decs.filterMap decLog := by
  intro files
  induction files with
  | nil => intro tgt; rfl
  | cons f rest ih =>
    intro tgt
    cases hd : decideFile tgt f <;>
      simp [runSync, hd, decLog, List.filterMap_cons, ih]

theorem eq_of_mem_ancestors {d p : Path} (h : d ∈ ancestors p) :
    p.take d.length = d := by
  unfold ancestors at h
  rw [List.mem_map] at h
  obtain ⟨k, hk, hd⟩ := h
  rw [List.mem_range] at hk
  subst hd
  have hle : k + 1 ≤ p.length := by omega
  rw [List.length_take, Nat.min_eq_left hle]

theorem not_mem_syncDirs {d : Path} (tgt : Tgt) (f : SrcFile)
    (h : f.path.take d.length ≠ d) : d ∉ syncDirs tgt f := by
  unfold syncDirs
  cases decideFile tgt f with
  | copy =>
    intro hmem
    exact h (eq_of_mem_ancestors hmem)
  | skip => simp
  | errSrc => simp
  | errTgt => simp

theorem runSync_dirs_not_mem (now : Nat) {d : Path} :
    ∀ files : List SrcFile, (∀ f ∈ files, f.path.take d.length ≠ d) →
      ∀ tgt : Tgt, d ∉ (runSync now files tgt).dirs := by
  intro files
  induction files with
  | nil => intro _ tgt hmem; simp [runSync] at hmem
  | cons f rest ih =>
    intro h tgt hmem
    have hsplit : d ∈ syncDirs tgt f ∨ d ∈ (runSync now rest (syncTgt now tgt f)).dirs := by
      simpa [runSync] using hmem
    rcases hsplit with h1 | h2
    · exact not_mem_syncDirs tgt f (h f (List.mem_cons_self f rest)) h1
    · exact ih (fun g hg => h g (List.mem_cons_of_mem f hg)) (syncTgt now tgt f) h2

/-! Helper lemmas about the purge phase. -/

theorem purgeLoop_attempted_not_src (src : List Path) (delOk : Path → Bool) :
    ∀ l : List PEntry, ∀ p ∈ (purgeLoop src delOk l).1, p ∉ src := by
  intro l
  induction l with
  | nil => intro p hp; simp [purgeLoop] at hp
  | cons e rest ih =>
    intro p hp
    by_cases he : e.path ∈ src
    · simp only [purgeLoop, if_pos he] at hp
      exact ih p hp
    · simp only [purgeLoop, if_neg he] at hp
      by_cases hok : delOk e.path = true
      · rw [if_pos hok] at hp
        rcases List.mem_cons.mp hp with h1 | h2
        · subst h1; exact he
        · exact ih p h2
      · rw [if_neg hok] at hp
        rcases List.mem_cons.mp hp with h1 | h2
        · subst h1; exact he
        · exact ih p h2

theorem purgeLoop_attempted_mem (src : List Path) (delOk : Path → Bool) :
    ∀ l : List PEntry, ∀ p ∈ (purgeLoop src delOk l).1, ∃ e ∈ l, e.path = p := by
  intro l
  induction l with
  | nil => intro p hp; simp [purgeLoop] at hp
  | cons e rest ih =>
    intro p hp
    by_cases he : e.path ∈ src
    · simp only [purgeLoop, if_pos he] at hp
      obtain ⟨g, hg, hgp⟩ := ih p hp
      exact ⟨g, List.mem_cons_of_mem e hg, hgp⟩
    · simp only [purgeLoop, if_neg he] at hp
      by_cases hok : delOk e.path = true
      · rw [if_pos hok] at hp
        rcases List.mem_cons.mp hp with h1 | h2
        · exact ⟨e, List.mem_cons_self e rest, h1.symm⟩
        · obtain ⟨g, hg, hgp⟩ := ih p h2
          exact ⟨g, List.mem_cons_of_mem e hg, hgp⟩
      · rw [if_neg hok] at hp
        rcases List.mem_cons.mp hp with h1 | h2
        · exact ⟨e, List.mem_cons_self e rest, h1.symm⟩
        · obtain ⟨g, hg, hgp⟩ := ih p h2
          exact ⟨g, List.mem_cons_of_mem e hg, hgp⟩

theorem purgeLoop_deleted_sub (src : List Path) (delOk : Path → Bool) :
    ∀ l : List PEntry, ∀ p ∈ (purgeLoop src delOk l).2.1, p ∈ (purgeLoop src delOk l).1 := by
  intro l
  induction l with
  | nil => intro p hp; simp [purgeLoop] at hp
  | cons e rest ih =>
    intro p hp
    by_cases he : e.path ∈ src
    · simp only [purgeLoop, if_pos he] at hp ⊢
      exact ih p hp
    · simp only [purgeLoop, if_neg he] at hp ⊢
      by_cases hok : delOk e.path = true
      · rw [if_pos hok] at hp ⊢
        rcases List.mem_cons.mp hp with h1 | h2
        · exact h1 ▸ List.mem_cons_self p _
        · exact List.mem_cons_of_mem _ (ih p h2)
      · rw [if_neg hok] at hp ⊢
        exact List.mem_cons_of_mem _ (ih p hp)

theorem purgeCandidates_pos (walk : List (Except String PEntry)) :
    ∀ e ∈ purgeCandidates walk, 0 < e.path.length := by
  intro e he
  unfold purgeCandidates at he
  have h2 := (List.perm_insertionSort deeperEq _).mem_iff.mp he
  rw [List.mem_filter] at h2
  simpa using h2.2

theorem purgeCandidates_sorted (walk : List (Except String PEntry)) :
    List.Sorted deeperEq (purgeCandidates walk) :=
  List.sorted_insertionSort deeperEq _

/-- The log line the source-walk collection emits for a walk result, if
any (main.rs line 61). -/
def errLine : Except String WEntry → Option String
  | Except.error e => some ("Error reading entry: " ++ e)
  | Except.ok _ => none

theorem collectFiles_logs (walk : List (Except String WEntry)) :
    (collectFiles walk).2 = walk.filterMap errLine := by
  induction walk with
  | nil => rfl
  | cons x rest ih =>
    cases x with
    | error e => simp [collectFiles, List.filterMap_cons, errLine, ih]
    | ok w => simp [collectFiles, List.filterMap_cons, errLine, ih]

theorem collectFiles_files (walk : List (Except String WEntry)) :
    (collectFiles walk).1
      = (walk.filterMap Except.toOption).filter (fun w => w.is_file) := by
  induction walk with
  | nil => rfl
  | cons x rest ih =>
    cases x with
    | error e => simp [collectFiles, List.filterMap_cons, Except.toOption, ih]
    | ok w =>
      by_cases hw : w.is_file = true
      · simp [collectFiles, List.filterMap_cons, Except.toOption, List.filter_cons, hw, ih]
      · simp [collectFiles, List.filterMap_cons, Except.toOption, List.filter_cons, hw, ih]

theorem filterMap_toOption_map_ok (l : List PEntry) :
    (l.map (fun e => (Except.ok e : Except String PEntry))).filterMap Except.toOption = l := by
  induction l with
  | nil => rfl
  | cons a rest ih => simp [List.filterMap_cons, Except.toOption, ih]

theorem purge_ignores_walk_errors (src : List Path) (delOk : Path → Bool)
    (walk : List (Except String PEntry)) :
    purgeOrphans src delOk walk
      = purgeOrphans src delOk
          ((walk.filterMap Except.toOption).map
            (fun e => (Except.ok e : Except String PEntry))) := by
  unfold purgeOrphans purgeCandidates
  rw [filterMap_toOption_map_ok]

theorem runSync_skip_frame (now : Nat) :
    ∀ files : List SrcFile, (files.map SrcFile.path).Nodup →
      ∀ f ∈ files, ∀ (tgt : Tgt) (tf : TFile) (s t : Nat),
        lookupT tgt f.path = some tf → f.mtime = some s → tf.mtime = some t →
        s ≤ t → lookupT (runSync now files tgt).tgt f.path = some tf := by
  intro files
  induction files with
  | nil => intro _ f hf; cases hf
  | cons g rest ih =>
    intro hnd f hf tgt tf s t hl hs ht hle
    have hcons : g.path ∉ rest.map SrcFile.path ∧ (rest.map SrcFile.path).Nodup := by
      rw [List.map_cons, List.nodup_cons] at hnd
      exact hnd
    rcases List.mem_cons.mp hf with hfg | hfr
    · subst hfg
      have hdec : decideFile tgt f = Decision.skip := by
        unfold decideFile
        rw [hl]
        simp only [Option.isSome_some, Option.some_bind]
        rw [hs, ht]
        exact shouldCopy_le hle
      have hstep : syncTgt now tgt f = tgt := by
        unfold syncTgt
        rw [hdec]
      have huntouched : ∀ h ∈ rest, h.path ≠ f.path := by
        intro h hh heq
        exact hcons.1 (heq ▸ List.mem_map_of_mem SrcFile.path hh)
      show lookupT (runSync now rest (syncTgt now tgt f)).tgt f.path = some tf
      rw [hstep, runSync_lookup_untouched now f.path rest huntouched tgt]
      exact hl
    · have hgf : g.path ≠ f.path := by
        intro heq
        exact hcons.1 (heq ▸ List.mem_map_of_mem SrcFile.path hfr)
      have hl2 : lookupT (syncTgt now tgt g) f.path = some tf := by
        rw [lookupT_syncTgt_ne now tgt g hgf]
        exact hl
      exact ih hcons.2 f hfr (syncTgt now tgt g) tf s t hl2 hs ht hle

theorem collectFiles_only_files (walk : List (Except String WEntry)) :
    ∀ w ∈ (collectFiles walk).1, w.is_file = true := by
  intro w hw
  rw [collectFiles_files walk, List.mem_filter] at hw
  simpa using hw.2

/-! Claim theorems. -/

/-- C1: staleness decision of the copy phase (main.rs lines 99 to 119):
a source file is copied exactly when the corresponding target path does
not exist, or both modification times are readable and the source one is
strictly greater; a target that exists with an equal or newer readable
modification time is skipped. -/
theorem staleness_decision (te : Bool) (s t : Option Nat) :
    (shouldCopy te s t = Decision.copy ↔
      (te = false ∨ ∃ sv tv, s = some sv ∧ t = some tv ∧ tv < sv)) ∧
    (∀ sv tv, s = some sv → t = some tv → sv ≤ tv →
      shouldCopy true s t = Decision.skip) := by
  constructor
  · cases te with
    | false => simp [shouldCopy]
    | true =>
      cases s with
      | none => simp [shouldCopy]
      | some sv =>
        cases t with
        | none => simp [shouldCopy]
        | some tv =>
          by_cases h : sv > tv <;> simp [shouldCopy, h]
  · intro sv tv hs ht hle
    rw [hs, ht]
    exact shouldCopy_le hle

/-- Witness for C1 at a concrete input: an existing target with a newer
modification time is skipped. -/
theorem staleness_decision_witness :
    shouldCopy true (some 3) (some 5) = Decision.skip :=
  (staleness_decision true (some 3) (some 5)).2 3 5 rfl rfl (by omega)

/-- C2: purge correctness (main.rs lines 227 to 248): deletion is
attempted only on entries whose relative path has no counterpart under
the source root, and every entry whose relative path exists under source
is kept — it is neither attempted nor deleted. -/
theorem purge_keeps_counterparts (src : List Path) (delOk : Path → Bool)
    (walk : List (Except String PEntry)) :
    (∀ p ∈ (purgeOrphans src delOk walk).attempted, p ∉ src) ∧
    (∀ p ∈ src, p ∉ (purgeOrphans src delOk walk).attempted ∧
      p ∉ (purgeOrphans src delOk walk).deleted) := by
  constructor
  · intro p hp
    exact purgeLoop_attempted_not_src src delOk (purgeCandidates walk) p hp
  · intro p hp
    constructor
    · intro hmem
      exact purgeLoop_attempted_not_src src delOk (purgeCandidates walk) p hmem hp
    · intro hmem
      exact purgeLoop_attempted_not_src src delOk (purgeCandidates walk) p
        (purgeLoop_deleted_sub src delOk (purgeCandidates walk) p hmem) hp

/-- Witness for C2 at a concrete input: with source containing the path
keep and the target walk yielding keep and gone, the kept path is
neither attempted nor deleted. -/
theorem purge_keeps_counterparts_witness :
    (["keep"] : Path) ∉ (purgeOrphans [["keep"]] (fun _ => true)
        [Except.ok ⟨["keep"], true⟩, Except.ok ⟨["gone"], true⟩]).attempted ∧
    (["keep"] : Path) ∉ (purgeOrphans [["keep"]] (fun _ => true)
        [Except.ok ⟨["keep"], true⟩, Except.ok ⟨["gone"], true⟩]).deleted :=
  (purge_keeps_counterparts [["keep"]] (fun _ => true)
    [Except.ok ⟨["keep"], true⟩, Except.ok ⟨["gone"], true⟩]).2 ["keep"] (by decide)

/-- C3: idempotence of the copy phase: run twice in immediate succession
on the same source files, every per-file decision of the second run is a
skip (regular or via a metadata error), never copy, so the second run
performs zero copies.  Hypotheses: the walk yields each relative path at
most once, and no readable source modification time lies in the future
of the copy-time clock of the first run. -/
theorem sync_idempotent (now now2 : Nat) (files : List SrcFile) (tgt : Tgt)
    (hnd : (files.map SrcFile.path).Nodup)
    (hmt : ∀ f ∈ files, ∀ s, f.mtime = some s → s ≤ now) :
    ∀ d ∈ (runSync now2 files (runSync now files tgt).tgt).decs,
      d ≠ Decision.copy := by
  apply runSync_no_copy_of_decide
  intro f hf
  exact runSync_decide_final now files hnd hmt tgt f hf

/-- Witness for C3 at a concrete input: one fresh source file over an
empty target; the single decision of the second run is skip, and skip
differs from copy. -/
theorem sync_idempotent_witness : Decision.skip ≠ Decision.copy :=
  sync_idempotent 10 20 [⟨["a"], [0], some 5⟩] []
    (by decide)
    (by
      intro f hf s hs
      rw [List.mem_singleton] at hf
      subst hf
      have h5 : (5 : Nat) = s := Option.some.inj hs
      omega)
    Decision.skip (by decide)

/-- C4: frame condition of a skip: a file present in both trees whose
readable source modification time is at most the readable target one
keeps its target binding, bytes and modification time alike, across the
run.  Hypothesis: the walk yields each relative path at most once. -/
theorem skip_frame (now : Nat) (files : List SrcFile) (tgt : Tgt)
    (f : SrcFile) (tf : TFile) (s t : Nat)
    (hnd : (files.map SrcFile.path).Nodup)
    (hf : f ∈ files)
    (hl : lookupT tgt f.path = some tf)
    (hs : f.mtime = some s)
    (ht : tf.mtime = some t)
    (hle : s ≤ t) :
    lookupT (runSync now files tgt).tgt f.path = some tf :=
  runSync_skip_frame now files hnd f hf tgt tf s t hl hs ht hle

/-- Witness for C4 at a concrete input: a target file with a newer
modification time survives the run unchanged. -/
theorem skip_frame_witness :
    lookupT (runSync 10 [⟨["a"], [1], some 3⟩]
        [(["a"], ⟨[9], some 7⟩)]).tgt ["a"] = some ⟨[9], some 7⟩ :=
  skip_frame 10 [⟨["a"], [1], some 3⟩] [(["a"], ⟨[9], some 7⟩)]
    ⟨["a"], [1], some 3⟩ ⟨[9], some 7⟩ 3 7
    (by decide) (by decide) (by decide) rfl rfl (by omega)

/-- C5: deletion ordering: the candidate list of the purge phase is
sorted by descending depth before any deletion is attempted, so in the
processed sequence an entry never precedes a strictly deeper one. -/
theorem prune_deepest_first (walk : List (Except String PEntry))
    (i j : Nat) (hij : i < j) (a b : PEntry)
    (ha : (purgeCandidates walk).get? i = some a)
    (hb : (purgeCandidates walk).get? j = some b) :
    b.path.length ≤ a.path.length := by
  have hs : List.Pairwise deeperEq (purgeCandidates walk) :=
    purgeCandidates_sorted walk
  rw [List.pairwise_iff_get] at hs
  obtain ⟨hi2, ha2⟩ := List.get?_eq_some.mp ha
  obtain ⟨hj2, hb2⟩ := List.get?_eq_some.mp hb
  have h3 := hs ⟨i, hi2⟩ ⟨j, hj2⟩ (Fin.mk_lt_mk.mpr hij)
  rw [ha2, hb2] at h3
  exact h3

/-- Witness for C5 at a concrete input: with a shallow and a deep entry
in the walk, the deep one comes first in the candidate list. -/
theorem prune_deepest_first_witness :
    (⟨["a"], false⟩ : PEntry).path.length
      ≤ (⟨["a", "b"], true⟩ : PEntry).path.length :=
  prune_deepest_first
    [Except.ok ⟨["a"], false⟩, Except.ok ⟨["a", "b"], true⟩]
    0 1 (by omega) ⟨["a", "b"], true⟩ ⟨["a"], false⟩ (by decide) (by decide)

/-- C6: root protection: the purge phase never attempts to delete the
target root: every candidate has depth at least one, and the empty
relative path is never in the attempted list, whatever the trees
contain. -/
theorem prune_root_protected (src : List Path) (delOk : Path → Bool)
    (walk : List (Except String PEntry)) :
    ([] : Path) ∉ (purgeOrphans src delOk walk).attempted ∧
    ∀ e ∈ purgeCandidates walk, 0 < e.path.length := by
  constructor
  · intro hmem
    obtain ⟨e, he, hep⟩ := purgeLoop_attempted_mem src delOk (purgeCandidates walk) [] hmem
    have hpos := purgeCandidates_pos walk e he
    rw [hep] at hpos
    simp at hpos
  · exact purgeCandidates_pos walk

/-- Witness for C6 at a concrete input: with one depth-one entry in the
walk, the root is not attempted and that candidate has positive
depth. -/
theorem prune_root_protected_witness :
    ([] : Path) ∉ (purgeOrphans [] (fun _ => true)
        [Except.ok ⟨["x"], true⟩]).attempted ∧
    0 < (⟨["x"], true⟩ : PEntry).path.length :=
  ⟨(prune_root_protected [] (fun _ => true) [Except.ok ⟨["x"], true⟩]).1,
    (prune_root_protected [] (fun _ => true) [Except.ok ⟨["x"], true⟩]).2
      ⟨["x"], true⟩ (by decide)⟩

/-- C7: a failing metadata read during the staleness decision is never
treated as a copy: reading the source time first and the target time
second, a failure yields the matching error decision, which differs from
copy; the loop still processes every file, and the error log lines are
exactly one line per error decision. -/
theorem metadata_error_skips :
    (∀ t : Option Nat, shouldCopy true none t = Decision.errSrc) ∧
    (∀ s : Nat, shouldCopy true (some s) none = Decision.errTgt) ∧
    Decision.errSrc ≠ Decision.copy ∧ Decision.errTgt ≠ Decision.copy ∧
    (∀ (now : Nat) (files : List SrcFile) (tgt : Tgt),
      (runSync now files tgt).decs.length = files.length ∧
      (runSync now files tgt).logs = (runSync now files tgt).decs.filterMap decLog) :=
  ⟨fun _ => rfl, fun _ => rfl, by simp, by simp,
    fun now files tgt =>
      ⟨runSync_decs_length now files tgt, runSync_logs_decs now files tgt⟩⟩

/-- C8 as stated is false on the prune phase: a traversal error in the
target walk produces no logged output at all — the purge result is the
same as on the error-free walk and its log list is empty, so the error
is silently swallowed. -/
theorem prune_walk_error_unlogged :
    purgeOrphans [] (fun _ => true) [Except.error "permission denied"]
      = purgeOrphans [] (fun _ => true) [] ∧
    (purgeOrphans [] (fun _ => true) [Except.error "permission denied"]).logs = [] :=
  ⟨rfl, rfl⟩

/-- C8 (amended): traversal error surfacing differs between the two
phases: in the copy phase every erroneous source-walk entry produces
exactly one log line and contributes no file, while the prune phase
drops erroneous target-walk entries silently — its whole result equals
the one of the same run on the error-free walk. -/
theorem walk_error_handling (walkS : List (Except String WEntry))
    (walkT : List (Except String PEntry)) (src : List Path) (delOk : Path → Bool) :
    (collectFiles walkS).2 = walkS.filterMap errLine ∧
    (collectFiles walkS).1
      = (walkS.filterMap Except.toOption).filter (fun w => w.is_file) ∧
    purgeOrphans src delOk walkT
      = purgeOrphans src delOk
          ((walkT.filterMap Except.toOption).map
            (fun e => (Except.ok e : Except String PEntry))) :=
  ⟨collectFiles_logs walkS, collectFiles_files walkS,
    purge_ignores_walk_errors src delOk walkT⟩

/-- C9: purge_orphans always returns Ok: every removal or attribute
failure is handled inside the loop by logging, so the branch of main
that reports a deletion phase finished with errors is unreachable. -/
theorem purge_always_ok (src : List Path) (delOk : Path → Bool)
    (walk : List (Except String PEntry)) :
    (purgeOrphans src delOk walk).result = Except.ok () ∧
    mainPurgeLog (purgeOrphans src delOk walk) = [] :=
  ⟨rfl, rfl⟩

/-- C10: the copy phase never replicates an empty directory: the source
walk collection keeps regular files only, and a run creates directories
only as ancestors of copied files, so a relative path that leads to no
source file is neither created as a directory nor bound in the target
tree. -/
theorem copy_no_empty_dirs (walkS : List (Except String WEntry))
    (now : Nat) (files : List SrcFile) (tgt : Tgt) (d : Path)
    (hd : ∀ f ∈ files, f.path.take d.length ≠ d) :
    (∀ w ∈ (collectFiles walkS).1, w.is_file = true) ∧
    d ∉ (runSync now files tgt).dirs ∧
    lookupT (runSync now files tgt).tgt d = lookupT tgt d := by
  refine ⟨collectFiles_only_files walkS, runSync_dirs_not_mem now files hd tgt, ?_⟩
  have huntouched : ∀ f ∈ files, f.path ≠ d := by
    intro f hf heq
    apply hd f hf
    rw [heq, List.take_length]
  exact runSync_lookup_untouched now d files huntouched tgt

/-- Witness for C10 at a concrete input: a source directory containing
no file gets no counterpart under the target. -/
theorem copy_no_empty_dirs_witness :
    (∀ w ∈ (collectFiles [Except.ok (⟨["emptydir"], false⟩ : WEntry)]).1,
      w.is_file = true) ∧
    (["emptydir"] : Path) ∉ (runSync 5 [⟨["x", "f"], [1], some 1⟩] []).dirs ∧
    lookupT (runSync 5 [⟨["x", "f"], [1], some 1⟩] []).tgt ["emptydir"]
      = lookupT [] ["emptydir"] :=
  copy_no_empty_dirs [Except.ok ⟨["emptydir"], false⟩] 5
    [⟨["x", "f"], [1], some 1⟩] [] ["emptydir"] (by decide)

end Backup
